import Mathlib

/-!
Verification of the trajectory-analytics utilities (`mushroom/utils/dataset.py`)
and the stochastic policy layer (`mushroom_rl/policy/noise_policy.py`).

Scalars (rewards, Q-values, action components) are modelled as rationals `ℚ`,
an exact model of the library's floating-point arithmetic.  External numeric
primitives of the tensor library (sigmoid, tanh, square root) are opaque
function parameters, and random draws (Gaussian noise, uniform indices,
tie-break choices) are explicit arguments, following the source where each
draw is obtained from the process-wide random source.
-/

namespace MushroomSpec

/-- A transition record `(state, action, reward, next_state, absorbing, last)`
as stored in a dataset. -/
structure Transition where
  state : List ℚ
  action : List ℚ
  reward : ℚ
  next_state : List ℚ
  absorbing : Bool
  last : Bool
deriving DecidableEq

/-- Numeric image of a boolean, as numpy stores flags into float arrays. -/
def ratOfBool (b : Bool) : ℚ := if b then 1 else 0

/-- One cell of the 2-D object array `np.array(dataset)`: an array component
(state, action, next_state), a scalar, or a boolean flag. -/
inductive Entry where
  | arr : List ℚ → Entry
  | num : ℚ → Entry
  | flag : Bool → Entry
deriving DecidableEq

/-- The row of the 2-D object array corresponding to one transition. -/
def Transition.toRow (t : Transition) : List Entry :=
  [Entry.arr t.state, Entry.arr t.action, Entry.num t.reward,
   Entry.arr t.next_state, Entry.flag t.absorbing, Entry.flag t.last]

/-- Whether every transition has the component shapes of the first one
(the shapes the output arrays of `parse_dataset` are allocated with). -/
def sameShapes : List Transition → Bool
  | [] => true
  | t :: rest => rest.all (fun u =>
      u.state.length == t.state.length &&
      u.action.length == t.action.length &&
      u.next_state.length == t.next_state.length)

/-- Embedding of `parse_dataset`: six parallel columns, one row per
transition.  `none` models the `assert len(dataset) > 0` failure and the
shape-mismatch failure. -/
def parse_dataset (ds : List Transition) :
    Option (List (List ℚ) × List (List ℚ) × List ℚ × List (List ℚ) × List ℚ × List ℚ) :=
  if ds.isEmpty then none
  else if sameShapes ds then
    some (ds.map (·.state), ds.map (·.action), ds.map (·.reward),
          ds.map (·.next_state), ds.map (fun t => ratOfBool t.absorbing),
          ds.map (fun t => ratOfBool t.last))
  else none

/-- Reassemble a transition from the i-th rows of the six parallel arrays,
reading the numeric flags back through Python truthiness. -/
def reassemble (st ac : List ℚ) (re : ℚ) (ns : List ℚ) (ab l : ℚ) : Transition :=
  { state := st, action := ac, reward := re, next_state := ns,
    absorbing := decide (ab ≠ 0), last := decide (l ≠ 0) }

/-- The `last` flag of the i-th row of the dataset (`dataset[:, -1]`). -/
def lastFlag (ds : List Transition) (i : ℕ) : Bool :=
  match ds[i]? with
  | some t => t.last
  | none => false

/-- Embedding of `np.argwhere(dataset[:, -1] == 1).ravel()`: the increasing
list of indices whose transition has `last = true`. -/
def lastIdxs (ds : List Transition) : List ℕ :=
  (List.range ds.length).filter (lastFlag ds)

/-- Embedding of `select_episodes` (without the `parse` flag): for
`n_episodes = 0` the nested empty-array sentinel `np.array([[]])`, otherwise
the row slice `dataset[:last_idxs[n_episodes - 1] + 1, :]`; `none` models the
`IndexError` when fewer episodes exist. -/
def select_episodes (ds : List Transition) (n_episodes : ℕ) :
    Option (List (List Entry)) :=
  if n_episodes = 0 then some [[]]
  else
    match (lastIdxs ds)[n_episodes - 1]? with
    | none => none
    | some k => some ((ds.take (k + 1)).map Transition.toRow)

/-- Embedding of `select_samples` (without the `parse` flag): `idxs` is the
drawn index sequence `np.random.randint(len(dataset), size=n_samples)`;
for `n_samples = 0` the nested empty-array sentinel `np.array([[]])` is
returned before any drawing happens. -/
def select_samples (ds : List Transition) (n_samples : ℕ) (idxs : List ℕ) :
    Option (List (List Entry)) :=
  if n_samples = 0 then some [[]]
  else if idxs.all (· < ds.length) then
    some (idxs.filterMap (fun i => ds[i]?.map Transition.toRow))
  else none

/-- The accumulator loop of `compute_J`: `j` is the running discounted sum of
the current episode and `steps` the in-episode step counter. -/
def computeJAux (gamma : ℚ) : List Transition → ℚ → ℕ → List ℚ
  | [], _, _ => []
  | t :: rest, j, steps =>
    let j' := j + gamma ^ steps * t.reward
    if t.last then j' :: computeJAux gamma rest 0 0
    else computeJAux gamma rest j' (steps + 1)

/-- Embedding of `compute_J`. -/
def compute_J (ds : List Transition) (gamma : ℚ) : List ℚ :=
  computeJAux gamma ds 0 0

/-- Modelled from the spec's episode notion: the completed episodes of a
dataset, i.e. the maximal contiguous runs each ending at its `last = true`
transition; transitions after the final `last = true` are dropped. -/
def episodesOf : List Transition → List (List Transition)
  | [] => []
  | t :: rest =>
    if t.last then [t] :: episodesOf rest
    else
      match episodesOf rest with
      | [] => []
      | e :: es => (t :: e) :: es

/-- Discounted return of an episode with the step counter starting at `s`. -/
def epReturnFrom (gamma : ℚ) (s : ℕ) : List Transition → ℚ
  | [] => 0
  | t :: rest => gamma ^ s * t.reward + epReturnFrom gamma (s + 1) rest

/-- Discounted return `sum_t gamma^t * reward_t` of an episode, as the spec
writes it. -/
def discountedReturn (gamma : ℚ) (e : List Transition) : ℚ :=
  (((List.range e.length).zip e).map (fun p => gamma ^ p.1 * p.2.reward)).sum

/-- The accumulator loop of `compute_scores`: running episode score and the
completed-episode counter. -/
def computeScoresAux : List Transition → ℚ → ℕ → List ℚ × ℕ
  | [], _, n => ([], n)
  | t :: rest, score, n =>
    let score' := score + t.reward
    if t.last then
      let r := computeScoresAux rest 0 (n + 1)
      (score' :: r.1, r.2)
    else computeScoresAux rest score' n

/-- Embedding of `compute_scores`: `(np.min, np.max, np.mean, n_episodes)` of
the per-episode scores, or the sentinel `(0, 0, 0, 0)`. -/
def compute_scores (ds : List Transition) : ℚ × ℚ × ℚ × ℕ :=
  let r := computeScoresAux ds 0 0
  match r.1, r.2 with
  | [], _ => (0, 0, 0, 0)
  | s :: ss, n => (ss.foldl min s, ss.foldl max s, (s :: ss).sum / (s :: ss).length, n)

/-! ### Lemmas about `compute_J` and the episode decomposition -/

lemma epReturnFrom_nil (gamma : ℚ) (s : ℕ) : epReturnFrom gamma s [] = 0 := rfl

lemma epReturnFrom_cons (gamma : ℚ) (s : ℕ) (t : Transition) (e : List Transition) :
    epReturnFrom gamma s (t :: e) = gamma ^ s * t.reward + epReturnFrom gamma (s + 1) e := rfl

lemma episodesOf_cons_pos (t : Transition) (rest : List Transition) (h : t.last = true) :
    episodesOf (t :: rest) = [t] :: episodesOf rest := by
  simp [episodesOf, h]

lemma episodesOf_cons_neg_nil (t : Transition) (rest : List Transition)
    (h : t.last = false) (hrest : episodesOf rest = []) :
    episodesOf (t :: rest) = [] := by
  simp [episodesOf, h, hrest]

lemma episodesOf_cons_neg_cons (t : Transition) (rest : List Transition)
    (h : t.last = false) (e : List Transition) (es : List (List Transition))
    (hrest : episodesOf rest = e :: es) :
    episodesOf (t :: rest) = (t :: e) :: es := by
  simp [episodesOf, h, hrest]

lemma computeJAux_spec (gamma : ℚ) (ds : List Transition) :
    ∀ (j : ℚ) (s : ℕ),
      computeJAux gamma ds j s =
        match episodesOf ds with
        | [] => []
        | e :: es => (j + epReturnFrom gamma s e) :: es.map (epReturnFrom gamma 0) := by
  induction ds with
  | nil => intro j s; rfl
  | cons t rest ih =>
    intro j s
    by_cases h : t.last
    · have hL : computeJAux gamma (t :: rest) j s
          = (j + gamma ^ s * t.reward) :: computeJAux gamma rest 0 0 := by
        simp [computeJAux, h]
      rw [hL, ih 0 0, episodesOf_cons_pos t rest h]
      cases hrest : episodesOf rest with
      | nil => simp [epReturnFrom]
      | cons e es => simp [epReturnFrom]
    · have h' : t.last = false := by simpa using h
      have hL : computeJAux gamma (t :: rest) j s
          = computeJAux gamma rest (j + gamma ^ s * t.reward) (s + 1) := by
        simp [computeJAux, h']
      rw [hL, ih (j + gamma ^ s * t.reward) (s + 1)]
      cases hrest : episodesOf rest with
      | nil => rw [episodesOf_cons_neg_nil t rest h' hrest]
      | cons e es =>
        rw [episodesOf_cons_neg_cons t rest h' e es hrest]
        simp [epReturnFrom_cons, add_assoc]

lemma epReturnFrom_eq_sum (gamma : ℚ) (e : List Transition) :
    ∀ s : ℕ, epReturnFrom gamma s e =
      (((List.range e.length).zip e).map (fun p => gamma ^ (s + p.1) * p.2.reward)).sum := by
  induction e with
  | nil => intro s; rfl
  | cons t rest ih =>
    intro s
    rw [epReturnFrom_cons, ih (s + 1)]
    simp only [List.length_cons, List.range_succ_eq_map, List.zip_cons_cons,
      List.map_cons, List.sum_cons, List.zip_map_left, List.map_map]
    have harg :
        ((fun p : ℕ × Transition => gamma ^ (s + p.1) * p.2.reward) ∘ Prod.map Nat.succ id)
          = fun p : ℕ × Transition => gamma ^ (s + 1 + p.1) * p.2.reward := by
      funext p
      simp only [Function.comp_apply, Prod.map_fst, Prod.map_snd, id_eq, Nat.succ_eq_add_one]
      ring
    rw [harg]
    simp

lemma epReturnFrom_zero_eq_discounted (gamma : ℚ) (e : List Transition) :
    epReturnFrom gamma 0 e = discountedReturn gamma e := by
  rw [epReturnFrom_eq_sum gamma e 0, discountedReturn]
  simp

lemma compute_J_eq_map (ds : List Transition) (gamma : ℚ) :
    compute_J ds gamma = (episodesOf ds).map (discountedReturn gamma) := by
  rw [compute_J, computeJAux_spec gamma ds 0 0]
  cases h : episodesOf ds with
  | nil => rfl
  | cons e es =>
    simp [epReturnFrom_zero_eq_discounted]

lemma episodesOf_ep_shape (ds : List Transition) :
    ∀ e ∈ episodesOf ds, ∃ e' x, e = e' ++ [x] ∧ x.last = true ∧ ∀ y ∈ e', y.last = false := by
  induction ds with
  | nil => intro e he; simp [episodesOf] at he
  | cons t rest ih =>
    intro e he
    by_cases h : t.last
    · rw [episodesOf_cons_pos t rest h] at he
      rcases List.mem_cons.mp he with heq | hmem
      · subst heq; exact ⟨[], t, by simp, h, by simp⟩
      · exact ih e hmem
    · have h' : t.last = false := by simpa using h
      cases hrest : episodesOf rest with
      | nil => rw [episodesOf_cons_neg_nil t rest h' hrest] at he; simp at he
      | cons e0 es =>
        rw [episodesOf_cons_neg_cons t rest h' e0 es hrest] at he
        rcases List.mem_cons.mp he with heq | hmem
        · subst heq
          obtain ⟨e', x, hx, hlast, hrun⟩ :=
            ih e0 (by rw [hrest]; exact List.mem_cons_self _ _)
          refine ⟨t :: e', x, by simp [hx], hlast, ?_⟩
          intro y hy
          rcases List.mem_cons.mp hy with heq' | hy'
          · subst heq'; exact h'
          · exact hrun y hy'
        · exact ih e (by rw [hrest]; exact List.mem_cons_of_mem _ hmem)

lemma episodesOf_flatten (ds : List Transition) :
    ∃ tail, (episodesOf ds).flatten ++ tail = ds ∧ ∀ y ∈ tail, y.last = false := by
  induction ds with
  | nil => exact ⟨[], rfl, by simp⟩
  | cons t rest ih =>
    obtain ⟨tail, hjoin, htail⟩ := ih
    by_cases h : t.last
    · refine ⟨tail, ?_, htail⟩
      rw [episodesOf_cons_pos t rest h]
      simpa using hjoin
    · have h' : t.last = false := by simpa using h
      cases hrest : episodesOf rest with
      | nil =>
        refine ⟨t :: rest, ?_, ?_⟩
        · rw [episodesOf_cons_neg_nil t rest h' hrest]; rfl
        · intro y hy
          rcases List.mem_cons.mp hy with heq | hy'
          · subst heq; exact h'
          · rw [hrest] at hjoin
            simp only [List.flatten_nil, List.nil_append] at hjoin
            subst hjoin
            exact htail y hy'
      | cons e es =>
        refine ⟨tail, ?_, htail⟩
        rw [hrest] at hjoin
        rw [episodesOf_cons_neg_cons t rest h' e es hrest]
        simp only [List.flatten_cons, List.cons_append, List.append_assoc] at hjoin ⊢
        rw [hjoin]

lemma episodesOf_length (ds : List Transition) :
    (episodesOf ds).length = ds.countP (fun t => t.last) := by
  induction ds with
  | nil => rfl
  | cons t rest ih =>
    by_cases h : t.last
    · rw [episodesOf_cons_pos t rest h]
      simp [List.countP_cons, h, ih]
    · have h' : t.last = false := by simpa using h
      cases hrest : episodesOf rest with
      | nil =>
        rw [episodesOf_cons_neg_nil t rest h' hrest]
        rw [hrest] at ih
        simp [List.countP_cons, h', ← ih]
      | cons e es =>
        rw [episodesOf_cons_neg_cons t rest h' e es hrest]
        rw [hrest] at ih
        simp [List.countP_cons, h', ← ih]

/-- C3: `compute_J` returns one discounted return per completed episode, in
episode order, the step counter resetting at each episode start; the maximal
runs ending at a `last = true` transition are exactly the completed episodes
and the trailing incomplete episode contributes nothing. -/
theorem compute_J_per_episode (ds : List Transition) (gamma : ℚ) :
    compute_J ds gamma = (episodesOf ds).map (discountedReturn gamma) ∧
    (episodesOf ds).length = ds.countP (fun t => t.last) ∧
    (∀ e ∈ episodesOf ds, ∃ e' x, e = e' ++ [x] ∧ x.last = true ∧ ∀ y ∈ e', y.last = false) ∧
    (∃ tail, (episodesOf ds).flatten ++ tail = ds ∧ ∀ y ∈ tail, y.last = false) :=
  ⟨compute_J_eq_map ds gamma, episodesOf_length ds, episodesOf_ep_shape ds,
    episodesOf_flatten ds⟩

/-- C3 witness: the theorem instantiated at a concrete one-episode dataset
and discount one half. -/
theorem compute_J_per_episode_witness :
    compute_J [⟨[0], [0], 1, [0], false, true⟩] (1 / 2)
      = (episodesOf [⟨[0], [0], 1, [0], false, true⟩]).map (discountedReturn (1 / 2)) ∧
    (episodesOf [⟨[0], [0], 1, [0], false, true⟩]).length
      = ([⟨[0], [0], 1, [0], false, true⟩] : List Transition).countP (fun t => t.last) ∧
    (∀ e ∈ episodesOf [⟨[0], [0], 1, [0], false, true⟩],
      ∃ e' x, e = e' ++ [x] ∧ x.last = true ∧ ∀ y ∈ e', y.last = false) ∧
    (∃ tail, (episodesOf [⟨[0], [0], 1, [0], false, true⟩]).flatten ++ tail
        = [⟨[0], [0], 1, [0], false, true⟩] ∧ ∀ y ∈ tail, y.last = false) :=
  compute_J_per_episode [⟨[0], [0], 1, [0], false, true⟩] (1 / 2)

/-! ### Lemmas about `compute_scores` -/

lemma computeScoresAux_fst (ds : List Transition) :
    ∀ (sc : ℚ) (n s : ℕ), (computeScoresAux ds sc n).1 = computeJAux 1 ds sc s := by
  induction ds with
  | nil => intro sc n s; rfl
  | cons t rest ih =>
    intro sc n s
    by_cases h : t.last
    · simp [computeScoresAux, computeJAux, h, ih 0 (n + 1) 0]
    · simp [computeScoresAux, computeJAux, h, ih (sc + t.reward) n (s + 1)]

lemma computeScoresAux_snd (ds : List Transition) :
    ∀ (sc : ℚ) (n : ℕ),
      (computeScoresAux ds sc n).2 = n + (computeScoresAux ds sc n).1.length := by
  induction ds with
  | nil => intro sc n; rfl
  | cons t rest ih =>
    intro sc n
    by_cases h : t.last
    · simp only [computeScoresAux, h, if_pos]
      rw [ih 0 (n + 1)]
      simp [List.length_cons]
      omega
    · simp only [computeScoresAux, h, Bool.false_eq_true, if_neg, not_false_iff]
      exact ih (sc + t.reward) n

lemma foldl_min_mem (s : ℚ) (ss : List ℚ) : ss.foldl min s ∈ s :: ss := by
  induction ss generalizing s with
  | nil => simp
  | cons a t ih =>
    have := ih (min s a)
    rcases List.mem_cons.mp this with heq | hmem
    · rcases min_choice s a with h | h <;> rw [List.foldl_cons, heq, h] <;> simp
    · simp only [List.foldl_cons]
      exact List.mem_cons_of_mem _ (List.mem_cons_of_mem _ hmem)

lemma foldl_min_le (s : ℚ) (ss : List ℚ) : ∀ x ∈ s :: ss, ss.foldl min s ≤ x := by
  induction ss generalizing s with
  | nil => intro x hx; simp at hx; simp [hx]
  | cons a t ih =>
    intro x hx
    have hbase : (a :: t).foldl min s ≤ min s a :=
      ih (min s a) (min s a) (List.mem_cons_self _ _)
    rcases List.mem_cons.mp hx with heq | hx'
    · rw [heq]
      exact le_trans hbase (min_le_left _ _)
    · rcases List.mem_cons.mp hx' with heq | hx''
      · rw [heq]
        exact le_trans hbase (min_le_right _ _)
      · exact ih (min s a) x (List.mem_cons_of_mem _ hx'')

lemma foldl_max_mem (s : ℚ) (ss : List ℚ) : ss.foldl max s ∈ s :: ss := by
  induction ss generalizing s with
  | nil => simp
  | cons a t ih =>
    have := ih (max s a)
    rcases List.mem_cons.mp this with heq | hmem
    · rcases max_choice s a with h | h <;> rw [List.foldl_cons, heq, h] <;> simp
    · simp only [List.foldl_cons]
      exact List.mem_cons_of_mem _ (List.mem_cons_of_mem _ hmem)

lemma foldl_max_ge (s : ℚ) (ss : List ℚ) : ∀ x ∈ s :: ss, x ≤ ss.foldl max s := by
  induction ss generalizing s with
  | nil => intro x hx; simp at hx; simp [hx]
  | cons a t ih =>
    intro x hx
    have hbase : max s a ≤ (a :: t).foldl max s :=
      ih (max s a) (max s a) (List.mem_cons_self _ _)
    rcases List.mem_cons.mp hx with heq | hx'
    · rw [heq]
      exact le_trans (le_max_left _ _) hbase
    · rcases List.mem_cons.mp hx' with heq | hx''
      · rw [heq]
        exact le_trans (le_max_right _ _) hbase
      · exact ih (max s a) x (List.mem_cons_of_mem _ hx'')

lemma compute_scores_unfold (ds : List Transition) :
    compute_scores ds =
      match compute_J ds 1 with
      | [] => (0, 0, 0, 0)
      | s :: ss => (ss.foldl min s, ss.foldl max s,
          (s :: ss).sum / (s :: ss).length, (s :: ss).length) := by
  have hfst : (computeScoresAux ds 0 0).1 = compute_J ds 1 :=
    computeScoresAux_fst ds 0 0 0
  have hsnd := computeScoresAux_snd ds 0 0
  rw [compute_scores]
  cases hJ : compute_J ds 1 with
  | nil =>
    rw [hJ] at hfst
    simp only [hfst]
  | cons s ss =>
    rw [hJ] at hfst
    rw [hfst] at hsnd ⊢
    simp only [hsnd]
    simp [List.length_cons]

/-- C4: `compute_scores` agrees with the undiscounted `compute_J` list — it
returns the minimum, maximum, mean and count of the per-episode sums of
`compute_J(dataset, gamma = 1)` when at least one episode is completed, and
the sentinel `(0, 0, 0, 0)` exactly when no `last = true` entry exists. -/
theorem compute_scores_matches_compute_J (ds : List Transition) :
    (compute_J ds 1 = [] ↔ ds.countP (fun t => t.last) = 0) ∧
    (ds.countP (fun t => t.last) = 0 → compute_scores ds = (0, 0, 0, 0)) ∧
    (ds.countP (fun t => t.last) ≠ 0 →
      ∃ s ss, compute_J ds 1 = s :: ss ∧
        compute_scores ds =
          (ss.foldl min s, ss.foldl max s,
           (s :: ss).sum / (s :: ss).length, (s :: ss).length) ∧
        (ss.foldl min s ∈ s :: ss ∧ ∀ x ∈ s :: ss, ss.foldl min s ≤ x) ∧
        (ss.foldl max s ∈ s :: ss ∧ ∀ x ∈ s :: ss, x ≤ ss.foldl max s)) := by
  have hlen : (compute_J ds 1).length = ds.countP (fun t => t.last) := by
    rw [compute_J_eq_map, List.length_map, episodesOf_length]
  have hiff : compute_J ds 1 = [] ↔ ds.countP (fun t => t.last) = 0 := by
    constructor
    · intro h; rw [← hlen, h]; rfl
    · intro h
      have : (compute_J ds 1).length = 0 := by rw [hlen, h]
      exact List.eq_nil_of_length_eq_zero this
  refine ⟨hiff, ?_, ?_⟩
  · intro h
    rw [compute_scores_unfold, hiff.mpr h]
  · intro h
    cases hJ : compute_J ds 1 with
    | nil => exact absurd (hiff.mp hJ) h
    | cons s ss =>
      refine ⟨s, ss, rfl, ?_, ⟨foldl_min_mem s ss, foldl_min_le s ss⟩,
        ⟨foldl_max_mem s ss, foldl_max_ge s ss⟩⟩
      rw [compute_scores_unfold, hJ]

/-- C4 witness: the spec's concrete scenario, rewards `[1,1,1,2,3]` with
`last` flags `[0,0,1,0,1]`. -/
theorem compute_scores_matches_compute_J_witness :
    ([⟨[0], [0], 1, [0], false, false⟩, ⟨[0], [0], 1, [0], false, false⟩,
      ⟨[0], [0], 1, [0], false, true⟩, ⟨[0], [0], 2, [0], false, false⟩,
      ⟨[0], [0], 3, [0], false, true⟩] : List Transition).countP (fun t => t.last) ≠ 0 ∧
    (∃ s ss, compute_J
      [⟨[0], [0], 1, [0], false, false⟩, ⟨[0], [0], 1, [0], false, false⟩,
       ⟨[0], [0], 1, [0], false, true⟩, ⟨[0], [0], 2, [0], false, false⟩,
       ⟨[0], [0], 3, [0], false, true⟩] 1 = s :: ss ∧
      compute_scores
        [⟨[0], [0], 1, [0], false, false⟩, ⟨[0], [0], 1, [0], false, false⟩,
         ⟨[0], [0], 1, [0], false, true⟩, ⟨[0], [0], 2, [0], false, false⟩,
         ⟨[0], [0], 3, [0], false, true⟩] =
        (ss.foldl min s, ss.foldl max s,
         (s :: ss).sum / (s :: ss).length, (s :: ss).length) ∧
      (ss.foldl min s ∈ s :: ss ∧ ∀ x ∈ s :: ss, ss.foldl min s ≤ x) ∧
      (ss.foldl max s ∈ s :: ss ∧ ∀ x ∈ s :: ss, x ≤ ss.foldl max s)) :=
  ⟨by decide, (compute_scores_matches_compute_J _).2.2 (by decide)⟩

/-! ### Noninterference of `compute_J` and `compute_scores` -/

lemma computeJAux_proj (gamma : ℚ) (ds1 : List Transition) :
    ∀ (ds2 : List Transition) (j : ℚ) (s : ℕ),
      ds1.map (fun t => (t.reward, t.last)) = ds2.map (fun t => (t.reward, t.last)) →
      computeJAux gamma ds1 j s = computeJAux gamma ds2 j s := by
  induction ds1 with
  | nil =>
    intro ds2 j s h
    have : ds2 = [] := by
      cases ds2 with
      | nil => rfl
      | cons a b => simp at h
    subst this; rfl
  | cons t rest ih =>
    intro ds2 j s h
    cases ds2 with
    | nil => simp at h
    | cons t2 rest2 =>
      simp only [List.map_cons, List.cons.injEq, Prod.mk.injEq] at h
      obtain ⟨⟨hr, hl⟩, hrest⟩ := h
      simp only [computeJAux, hr, hl]
      by_cases h2 : t2.last
      · simp only [h2, if_pos]
        rw [ih rest2 0 0 hrest]
      · simp only [h2, Bool.false_eq_true, if_neg, not_false_iff]
        rw [ih rest2 (j + gamma ^ s * t2.reward) (s + 1) hrest]

lemma computeScoresAux_proj (ds1 : List Transition) :
    ∀ (ds2 : List Transition) (sc : ℚ) (n : ℕ),
      ds1.map (fun t => (t.reward, t.last)) = ds2.map (fun t => (t.reward, t.last)) →
      computeScoresAux ds1 sc n = computeScoresAux ds2 sc n := by
  induction ds1 with
  | nil =>
    intro ds2 sc n h
    have : ds2 = [] := by
      cases ds2 with
      | nil => rfl
      | cons a b => simp at h
    subst this; rfl
  | cons t rest ih =>
    intro ds2 sc n h
    cases ds2 with
    | nil => simp at h
    | cons t2 rest2 =>
      simp only [List.map_cons, List.cons.injEq, Prod.mk.injEq] at h
      obtain ⟨⟨hr, hl⟩, hrest⟩ := h
      simp only [computeScoresAux, hr, hl]
      by_cases h2 : t2.last
      · simp only [h2, if_pos]
        rw [ih rest2 0 (n + 1) hrest]
      · simp only [h2, Bool.false_eq_true, if_neg, not_false_iff]
        rw [ih rest2 (sc + t2.reward) n hrest]

/-- C10: `compute_J` (for every discount) and `compute_scores` depend only on
the reward and `last` columns of the dataset — two datasets agreeing on those
two columns get identical results. -/
theorem compute_J_scores_depend_only_on_reward_last
    (gamma : ℚ) (ds1 ds2 : List Transition)
    (h : ds1.map (fun t => (t.reward, t.last)) = ds2.map (fun t => (t.reward, t.last))) :
    compute_J ds1 gamma = compute_J ds2 gamma ∧ compute_scores ds1 = compute_scores ds2 := by
  constructor
  · exact computeJAux_proj gamma ds1 ds2 0 0 h
  · rw [compute_scores, compute_scores, computeScoresAux_proj ds1 ds2 0 0 h]

/-- C10 witness: two one-transition datasets differing in every column except
reward and `last`. -/
theorem compute_J_scores_depend_only_on_reward_last_witness :
    ([⟨[1, 2], [3], 7, [4], true, true⟩] : List Transition).map (fun t => (t.reward, t.last))
      = ([⟨[9], [8, 8], 7, [5], false, true⟩] : List Transition).map (fun t => (t.reward, t.last)) ∧
    compute_J [⟨[1, 2], [3], 7, [4], true, true⟩] (1 / 2)
      = compute_J [⟨[9], [8, 8], 7, [5], false, true⟩] (1 / 2) ∧
    compute_scores [⟨[1, 2], [3], 7, [4], true, true⟩]
      = compute_scores [⟨[9], [8, 8], 7, [5], false, true⟩] :=
  ⟨rfl, compute_J_scores_depend_only_on_reward_last (1 / 2) _ _ rfl⟩

/-! ### Lemmas about `select_episodes` and `select_samples` -/

lemma getElem?_filter_range (p : ℕ → Bool) :
    ∀ (N n k : ℕ), ((List.range N).filter p)[n]? = some k →
      k < N ∧ p k = true ∧ ((List.range k).filter p).length = n := by
  intro N
  induction N with
  | zero => intro n k h; simp at h
  | succ N ih =>
    intro n k h
    rw [List.range_succ, List.filter_append] at h
    by_cases hn : n < ((List.range N).filter p).length
    · rw [List.getElem?_append, if_pos hn] at h
      obtain ⟨hk, hp, hc⟩ := ih n k h
      exact ⟨Nat.lt_succ_of_lt hk, hp, hc⟩
    · rw [List.getElem?_append, if_neg hn] at h
      by_cases hpN : p N
      · simp only [List.filter_singleton, hpN, cond_true] at h
        have hzero : n - ((List.range N).filter p).length = 0 := by
          by_contra hz
          rcases Nat.exists_eq_succ_of_ne_zero hz with ⟨m, hm⟩
          rw [hm] at h
          simp at h
        rw [hzero] at h
        simp only [List.getElem?_cons_zero, Option.some.injEq] at h
        subst h
        refine ⟨Nat.lt_succ_self N, hpN, ?_⟩
        omega
      · simp only [List.filter_singleton, Bool.eq_false_iff.mpr hpN, cond_false] at h
        simp at h

lemma filter_range_length_eq_countP_take (ds : List Transition) :
    ∀ k : ℕ, k ≤ ds.length →
      ((List.range k).filter (lastFlag ds)).length
        = (ds.take k).countP (fun t => t.last) := by
  intro k
  induction k with
  | zero => intro _; rfl
  | succ k ih =>
    intro hk
    have hk' : k ≤ ds.length := Nat.le_of_succ_le hk
    have hklt : k < ds.length := hk
    rw [List.range_succ, List.filter_append, List.length_append, ih hk']
    rw [List.take_succ, List.countP_append]
    have hget : ds[k]? = some (ds[k]) := List.getElem?_eq_getElem hklt
    rw [List.filter_singleton, hget]
    simp only [lastFlag, hget, Option.toList_some]
    by_cases h : (ds[k]).last
    · simp [h, List.countP_cons, List.countP_nil]
    · simp [h, List.countP_cons, List.countP_nil]

lemma lastIdxs_length (ds : List Transition) :
    (lastIdxs ds).length = ds.countP (fun t => t.last) := by
  rw [lastIdxs, filter_range_length_eq_countP_take ds ds.length (le_refl _), List.take_length]

/-- C5: for `1 ≤ n_episodes ≤` the number of `last = true` entries,
`select_episodes` returns the prefix of the dataset ending at, and including,
the `n_episodes`-th `last = true` position (the first `n_episodes` complete
episodes); for `n_episodes = 0` it returns a result containing no
transitions. -/
theorem select_episodes_spec (ds : List Transition) (n : ℕ)
    (h1 : 1 ≤ n) (h2 : n ≤ ds.countP (fun t => t.last)) :
    (∃ k, k < ds.length ∧
      select_episodes ds n = some ((ds.take (k + 1)).map Transition.toRow) ∧
      (∃ t, ds[k]? = some t ∧ t.last = true) ∧
      (ds.take (k + 1)).countP (fun t => t.last) = n) ∧
    (∃ r, select_episodes ds 0 = some r ∧ r.flatten = ([] : List Entry)) := by
  constructor
  · have hlt : n - 1 < (lastIdxs ds).length := by
      rw [lastIdxs_length]; omega
    have hsome : (lastIdxs ds)[n - 1]? = some ((lastIdxs ds)[n - 1]) :=
      List.getElem?_eq_getElem hlt
    set k := (lastIdxs ds)[n - 1] with hk
    obtain ⟨hkN, hpk, hcount⟩ := getElem?_filter_range (lastFlag ds) ds.length (n - 1) k hsome
    refine ⟨k, hkN, ?_, ?_, ?_⟩
    · rw [select_episodes, if_neg (by omega), hsome]
    · unfold lastFlag at hpk
      cases hget : ds[k]? with
      | none => rw [hget] at hpk; simp at hpk
      | some t => rw [hget] at hpk; exact ⟨t, rfl, hpk⟩
    · have hc' : ((List.range k).filter (lastFlag ds)).length
          = (ds.take k).countP (fun t => t.last) :=
        filter_range_length_eq_countP_take ds k (Nat.le_of_lt hkN)
      have hget : ds[k]? = some (ds[k]) := List.getElem?_eq_getElem hkN
      have hlastk : (ds[k]).last = true := by
        unfold lastFlag at hpk
        rw [hget] at hpk
        exact hpk
      have hstep : (ds.take (k + 1)).countP (fun t => t.last)
          = (ds.take k).countP (fun t => t.last) + 1 := by
        rw [List.take_succ, List.countP_append, hget]
        simp [List.countP_cons, List.countP_nil, hlastk]
      rw [hstep, ← hc', hcount]
      omega
  · exact ⟨[[]], by rw [select_episodes, if_pos rfl], rfl⟩

/-- C5 witness: the five-transition dataset with `last` flags `[0,0,1,0,1]`,
asking for its first two episodes. -/
theorem select_episodes_spec_witness :
    (1 ≤ 2 ∧
      ([⟨[0], [0], 1, [0], false, false⟩, ⟨[0], [0], 1, [0], false, false⟩,
        ⟨[0], [0], 1, [0], false, true⟩, ⟨[0], [0], 2, [0], false, false⟩,
        ⟨[0], [0], 3, [0], false, true⟩] : List Transition).countP (fun t => t.last) = 2) ∧
    (∃ k, k < ([⟨[0], [0], 1, [0], false, false⟩, ⟨[0], [0], 1, [0], false, false⟩,
        ⟨[0], [0], 1, [0], false, true⟩, ⟨[0], [0], 2, [0], false, false⟩,
        ⟨[0], [0], 3, [0], false, true⟩] : List Transition).length ∧
      select_episodes [⟨[0], [0], 1, [0], false, false⟩, ⟨[0], [0], 1, [0], false, false⟩,
        ⟨[0], [0], 1, [0], false, true⟩, ⟨[0], [0], 2, [0], false, false⟩,
        ⟨[0], [0], 3, [0], false, true⟩] 2 =
        some ((([⟨[0], [0], 1, [0], false, false⟩, ⟨[0], [0], 1, [0], false, false⟩,
          ⟨[0], [0], 1, [0], false, true⟩, ⟨[0], [0], 2, [0], false, false⟩,
          ⟨[0], [0], 3, [0], false, true⟩] : List Transition).take (k + 1)).map Transition.toRow) ∧
      (∃ t, ([⟨[0], [0], 1, [0], false, false⟩, ⟨[0], [0], 1, [0], false, false⟩,
        ⟨[0], [0], 1, [0], false, true⟩, ⟨[0], [0], 2, [0], false, false⟩,
        ⟨[0], [0], 3, [0], false, true⟩] : List Transition)[k]? = some t ∧ t.last = true) ∧
      (([⟨[0], [0], 1, [0], false, false⟩, ⟨[0], [0], 1, [0], false, false⟩,
        ⟨[0], [0], 1, [0], false, true⟩, ⟨[0], [0], 2, [0], false, false⟩,
        ⟨[0], [0], 3, [0], false, true⟩] : List Transition).take (k + 1)).countP
          (fun t => t.last) = 2) :=
  ⟨⟨by decide, by decide⟩,
    (select_episodes_spec _ 2 (by decide) (by decide)).1⟩

lemma filterMap_rows (ds : List Transition) :
    ∀ idxs : List ℕ, (∀ i ∈ idxs, i < ds.length) →
      (idxs.filterMap (fun i => ds[i]?.map Transition.toRow)).length = idxs.length ∧
      ∀ row ∈ idxs.filterMap (fun i => ds[i]?.map Transition.toRow),
        ∃ t ∈ ds, row = t.toRow := by
  intro idxs
  induction idxs with
  | nil => intro _; exact ⟨rfl, by simp⟩
  | cons i rest ih =>
    intro h
    have hi : i < ds.length := h i (List.mem_cons_self _ _)
    have hrest := ih (fun j hj => h j (List.mem_cons_of_mem _ hj))
    have hget : ds[i]? = some (ds[i]) := List.getElem?_eq_getElem hi
    constructor
    · simp only [List.filterMap_cons, hget, Option.map_some']
      simp [hrest.1]
    · intro row hrow
      simp only [List.filterMap_cons, hget, Option.map_some', List.mem_cons] at hrow
      rcases hrow with heq | hmem
      · exact ⟨ds[i], List.getElem_mem hi, heq⟩
      · exact hrest.2 row hmem

/-- C6 counterexample: on a one-transition dataset, `select_samples` with
`n_samples = 0` returns the sentinel `np.array([[]])`, a result with one
(empty) row rather than zero rows. -/
theorem select_samples_zero_one_row :
    select_samples [⟨[0], [0], 1, [0], false, true⟩] 0 [] = some [[]] ∧
    ([[] ] : List (List Entry)).length = 1 :=
  ⟨rfl, rfl⟩

/-- C6 (amended): for `n_samples ≥ 1` and any drawn index sequence of that
length with indices inside the dataset, `select_samples` returns exactly
`n_samples` rows, each equal to some row of the dataset; for `n_samples = 0`
the result is the sentinel `np.array([[]])`, which contains no transitions
(a single zero-length row). -/
theorem select_samples_spec (ds : List Transition) (n : ℕ) (idxs : List ℕ)
    (h1 : 1 ≤ n) (h2 : idxs.length = n) (h3 : ∀ i ∈ idxs, i < ds.length) :
    (∃ r, select_samples ds n idxs = some r ∧ r.length = n ∧
      ∀ row ∈ r, ∃ t ∈ ds, row = t.toRow) ∧
    (∃ r0, select_samples ds 0 idxs = some r0 ∧
      r0.length = 1 ∧ r0.flatten = ([] : List Entry)) := by
  constructor
  · have hall : idxs.all (fun i => decide (i < ds.length)) = true := by
      rw [List.all_eq_true]
      intro i hi
      exact decide_eq_true (h3 i hi)
    refine ⟨idxs.filterMap (fun i => ds[i]?.map Transition.toRow), ?_, ?_, ?_⟩
    · rw [select_samples, if_neg (by omega)]
      rw [if_pos hall]
    · rw [(filterMap_rows ds idxs h3).1, h2]
    · exact (filterMap_rows ds idxs h3).2
  · exact ⟨[[]], by rw [select_samples, if_pos rfl], rfl, rfl⟩

/-- C6 witness: three draws with replacement (index 0 twice) from a
two-transition dataset. -/
theorem select_samples_spec_witness :
    (1 ≤ 3 ∧ ([0, 1, 0] : List ℕ).length = 3 ∧
      ∀ i ∈ ([0, 1, 0] : List ℕ),
        i < ([⟨[1], [0], 1, [2], false, true⟩, ⟨[2], [0], 2, [3], false, true⟩]
          : List Transition).length) ∧
    (∃ r, select_samples
        [⟨[1], [0], 1, [2], false, true⟩, ⟨[2], [0], 2, [3], false, true⟩] 3 [0, 1, 0]
        = some r ∧ r.length = 3 ∧
      ∀ row ∈ r, ∃ t ∈ ([⟨[1], [0], 1, [2], false, true⟩, ⟨[2], [0], 2, [3], false, true⟩]
        : List Transition), row = t.toRow) :=
  ⟨⟨by decide, by decide, by decide⟩,
    (select_samples_spec _ 3 [0, 1, 0] (by decide) (by decide) (by decide)).1⟩

/-! ### Lemmas about `parse_dataset` -/

lemma reassemble_ratOfBool (t : Transition) :
    reassemble t.state t.action t.reward t.next_state
      (ratOfBool t.absorbing) (ratOfBool t.last) = t := by
  cases t with
  | mk s a r ns ab l =>
    cases ab <;> cases l <;> simp [reassemble, ratOfBool]

/-- C7: on a non-empty dataset whose transitions share the first transition's
component shapes, `parse_dataset` returns six parallel columns of the input's
length, in order, and reassembling the i-th entries of the six columns
reproduces the i-th input transition exactly. -/
theorem parse_dataset_roundtrip (ds : List Transition)
    (hne : ds ≠ []) (hsh : sameShapes ds = true) :
    ∃ (st ac ns : List (List ℚ)) (re ab la : List ℚ),
      parse_dataset ds = some (st, ac, re, ns, ab, la) ∧
      st.length = ds.length ∧ ac.length = ds.length ∧ re.length = ds.length ∧
      ns.length = ds.length ∧ ab.length = ds.length ∧ la.length = ds.length ∧
      ∀ (i : ℕ) (t : Transition), ds[i]? = some t →
        st[i]? = some t.state ∧ ac[i]? = some t.action ∧ re[i]? = some t.reward ∧
        ns[i]? = some t.next_state ∧ ab[i]? = some (ratOfBool t.absorbing) ∧
        la[i]? = some (ratOfBool t.last) ∧
        reassemble t.state t.action t.reward t.next_state
          (ratOfBool t.absorbing) (ratOfBool t.last) = t := by
  have hempty : ds.isEmpty = false := by
    cases ds with
    | nil => exact absurd rfl hne
    | cons a b => rfl
  refine ⟨ds.map (·.state), ds.map (·.action), ds.map (·.next_state), ds.map (·.reward),
    ds.map (fun t => ratOfBool t.absorbing), ds.map (fun t => ratOfBool t.last), ?_,
    by simp, by simp, by simp, by simp, by simp, by simp, ?_⟩
  · rw [parse_dataset, hempty]
    simp only [Bool.false_eq_true, if_neg, not_false_iff, hsh, if_pos]
  · intro i t hget
    refine ⟨?_, ?_, ?_, ?_, ?_, ?_, reassemble_ratOfBool t⟩ <;>
      simp [List.getElem?_map, hget]

/-- C7 witness: a two-transition dataset with matching component shapes. -/
theorem parse_dataset_roundtrip_witness :
    (([⟨[1, 2], [3], 4, [5, 6], true, false⟩, ⟨[7, 8], [9], 10, [11, 12], false, true⟩]
        : List Transition) ≠ [] ∧
      sameShapes [⟨[1, 2], [3], 4, [5, 6], true, false⟩,
        ⟨[7, 8], [9], 10, [11, 12], false, true⟩] = true) ∧
    (∃ (st ac ns : List (List ℚ)) (re ab la : List ℚ),
      parse_dataset [⟨[1, 2], [3], 4, [5, 6], true, false⟩,
        ⟨[7, 8], [9], 10, [11, 12], false, true⟩] = some (st, ac, re, ns, ab, la) ∧
      st.length = 2 ∧ ac.length = 2 ∧ re.length = 2 ∧
      ns.length = 2 ∧ ab.length = 2 ∧ la.length = 2 ∧
      ∀ (i : ℕ) (t : Transition), ([⟨[1, 2], [3], 4, [5, 6], true, false⟩,
        ⟨[7, 8], [9], 10, [11, 12], false, true⟩] : List Transition)[i]? = some t →
        st[i]? = some t.state ∧ ac[i]? = some t.action ∧ re[i]? = some t.reward ∧
        ns[i]? = some t.next_state ∧ ab[i]? = some (ratOfBool t.absorbing) ∧
        la[i]? = some (ratOfBool t.last) ∧
        reassemble t.state t.action t.reward t.next_state
          (ratOfBool t.absorbing) (ratOfBool t.last) = t) :=
  ⟨⟨by decide, by decide⟩,
    parse_dataset_roundtrip _ (by decide) (by decide)⟩

/-! ### Embedding of `max_QA` -/

/-- The external approximator capability used by `max_QA`: a batched
action-value query `predict_all`. -/
structure Approximator (σ : Type) where
  predict_all : List σ → List (List ℚ)

/-- Embedding of `q *= 1 - absorbing.reshape(-1, 1)`, guarded by
`np.any(absorbing)` as in the source. -/
def zeroRows (q : List (List ℚ)) (absorbing : List Bool) : List (List ℚ) :=
  if absorbing.any id then
    q.zipWith (fun row b => row.map (fun x => x * (1 - ratOfBool b))) absorbing
  else q

/-- Maximum of one row (`np.max` over axis 1 for that row); `none` models the
error on an empty row. -/
def rowMax : List ℚ → Option ℚ
  | [] => none
  | x :: xs => some (xs.foldl max x)

/-- First index attaining the row maximum (`np.argmax` for that row). -/
def argmaxFirst (row : List ℚ) : Option ℕ :=
  (rowMax row).map (fun m => row.findIdx (fun x => decide (x = m)))

/-- Apply a per-row operation to all rows, failing if it fails anywhere
(models a numpy axis-1 reduction). -/
def mapOrNone {α β : Type} (f : α → Option β) : List α → Option (List β)
  | [] => some []
  | a :: rest =>
    match f a, mapOrNone f rest with
    | some b, some bs => some (b :: bs)
    | _, _ => none

/-- Embedding of `np.argwhere(q[0] == max_q).ravel()`: the indices of the
single row that attain the value `m`. -/
def tiesOf (row : List ℚ) (m : ℚ) : List ℕ :=
  (List.range row.length).filter (fun j => decide (row[j]? = some m))

/-- Embedding of `max_QA`: per-row maxima of the absorbing-zeroed Q-matrix;
first-index argmax when the batch has more than one row, otherwise a random
choice (`draw` modelling the uniform draw of `np.random.choice`) among the
tied maximal indices of the single row. -/
def max_QA {σ : Type} (states : List σ) (absorbing : List Bool)
    (approx : Approximator σ) (draw : ℕ) : Option (List ℚ × List ℕ) :=
  let q := zeroRows (approx.predict_all states) absorbing
  match mapOrNone rowMax q with
  | none => none
  | some maxs =>
    if 1 < q.length then
      match mapOrNone argmaxFirst q with
      | none => none
      | some args => some (maxs, args)
    else
      match q, maxs with
      | [row], [m] =>
        match (tiesOf row m)[draw % (tiesOf row m).length]? with
        | none => none
        | some a => some (maxs, [a])
      | _, _ => none

lemma mapOrNone_total {α β : Type} (f : α → Option β) (l : List α)
    (h : ∀ a ∈ l, (f a).isSome) :
    ∃ out, mapOrNone f l = some out ∧ out.length = l.length ∧
      ∀ (i : ℕ) (a : α), l[i]? = some a → ∃ b, out[i]? = some b ∧ f a = some b := by
  induction l with
  | nil =>
    refine ⟨[], rfl, rfl, ?_⟩
    intro i a hi; simp at hi
  | cons a rest ih =>
    have ha : (f a).isSome := h a (List.mem_cons_self _ _)
    obtain ⟨b, hb⟩ := Option.isSome_iff_exists.mp ha
    obtain ⟨bs, hbs, hlen, hget⟩ := ih (fun x hx => h x (List.mem_cons_of_mem _ hx))
    refine ⟨b :: bs, ?_, by simp [hlen], ?_⟩
    · rw [mapOrNone, hb, hbs]
    · intro i x hi
      cases i with
      | zero =>
        simp only [List.getElem?_cons_zero, Option.some.injEq] at hi
        subst hi
        exact ⟨b, by simp, hb⟩
      | succ n =>
        simp only [List.getElem?_cons_succ] at hi ⊢
        exact hget n x hi

lemma rowMax_isSome (row : List ℚ) (h : row ≠ []) : (rowMax row).isSome := by
  cases row with
  | nil => exact absurd rfl h
  | cons x xs => rfl

lemma rowMax_mem_ub (row : List ℚ) (m : ℚ) (h : rowMax row = some m) :
    m ∈ row ∧ ∀ x ∈ row, x ≤ m := by
  cases row with
  | nil => simp [rowMax] at h
  | cons x xs =>
    simp only [rowMax, Option.some.injEq] at h
    subst h
    exact ⟨foldl_max_mem x xs, foldl_max_ge x xs⟩

lemma argmaxFirst_isSome (row : List ℚ) (h : row ≠ []) : (argmaxFirst row).isSome := by
  cases row with
  | nil => exact absurd rfl h
  | cons x xs => rfl

lemma argmaxFirst_spec (row : List ℚ) (m : ℚ) (hm : rowMax row = some m) :
    ∃ a, argmaxFirst row = some a ∧ row[a]? = some m ∧
      ∀ j, j < a → ∃ y, row[j]? = some y ∧ y < m := by
  obtain ⟨hmem, hub⟩ := rowMax_mem_ub row m hm
  have hex : ∃ x ∈ row, (fun x => decide (x = m)) x = true := ⟨m, hmem, by simp⟩
  have hlt : row.findIdx (fun x => decide (x = m)) < row.length :=
    List.findIdx_lt_length_of_exists hex
  refine ⟨row.findIdx (fun x => decide (x = m)), ?_, ?_, ?_⟩
  · rw [argmaxFirst, hm, Option.map_some']
  · have hp : (fun x => decide (x = m)) (row[row.findIdx (fun x => decide (x = m))])
        = true := @List.findIdx_getElem _ (fun x => decide (x = m)) row hlt
    have : row[row.findIdx (fun x => decide (x = m))] = m := by
      simpa using hp
    rw [List.getElem?_eq_getElem hlt, this]
  · intro j hj
    have hjlen : j < row.length := lt_trans hj hlt
    have hfalse : (fun x => decide (x = m)) (row[j]) = false :=
      List.not_of_lt_findIdx hj
    have hne : row[j] ≠ m := by simpa using hfalse
    exact ⟨row[j], List.getElem?_eq_getElem hjlen,
      lt_of_le_of_ne (hub _ (List.getElem_mem hjlen)) hne⟩

lemma tiesOf_mem_iff (row : List ℚ) (m : ℚ) (j : ℕ) :
    j ∈ tiesOf row m ↔ row[j]? = some m := by
  rw [tiesOf, List.mem_filter, List.mem_range, decide_eq_true_eq]
  constructor
  · exact fun h => h.2
  · intro h
    exact ⟨(List.getElem?_eq_some_iff.mp h).1, h⟩

lemma tiesOf_nodup (row : List ℚ) (m : ℚ) : (tiesOf row m).Nodup :=
  (List.nodup_range _).filter _

lemma tiesOf_ne_nil (row : List ℚ) (m : ℚ) (hm : rowMax row = some m) :
    tiesOf row m ≠ [] := by
  obtain ⟨hmem, _⟩ := rowMax_mem_ub row m hm
  obtain ⟨j, hj⟩ := List.mem_iff_getElem?.mp hmem
  intro hcon
  have : j ∈ tiesOf row m := (tiesOf_mem_iff row m j).mpr hj
  rw [hcon] at this
  simp at this

lemma zeroRows_length (q : List (List ℚ)) (ab : List Bool)
    (hlen : q.length = ab.length) : (zeroRows q ab).length = q.length := by
  rw [zeroRows]
  by_cases h : ab.any id
  · rw [if_pos h, List.length_zipWith, hlen, Nat.min_self]
  · rw [if_neg h]

lemma zeroRows_getElem? (q : List (List ℚ)) (ab : List Bool)
    (i : ℕ) (row : List ℚ) (b : Bool)
    (hq : q[i]? = some row) (hb : ab[i]? = some b) :
    (zeroRows q ab)[i]? = some (row.map (fun x => x * (1 - ratOfBool b))) := by
  rw [zeroRows]
  by_cases h : ab.any id
  · rw [if_pos h, List.getElem?_zipWith, hq, hb]
  · rw [if_neg h, hq]
    have hbf : b = false := by
      have := List.any_eq_false.mp (Bool.eq_false_iff.mpr h)
      have hmem : b ∈ ab := List.mem_iff_getElem?.mpr ⟨i, hb⟩
      simpa using this b hmem
    subst hbf
    have : row.map (fun x => x * (1 - ratOfBool false)) = row.map id := by
      refine List.map_congr_left ?_
      intro x _
      simp [ratOfBool]
    rw [this, List.map_id]

lemma zeroRows_rows_ne_nil (q : List (List ℚ)) (ab : List Bool)
    (hlen : q.length = ab.length) (hrows : ∀ row ∈ q, row ≠ []) :
    ∀ row' ∈ zeroRows q ab, row' ≠ [] := by
  intro row' hmem
  obtain ⟨i, hi⟩ := List.mem_iff_getElem?.mp hmem
  have hilen : i < (zeroRows q ab).length := (List.getElem?_eq_some_iff.mp hi).1
  rw [zeroRows_length q ab hlen] at hilen
  have hq : q[i]? = some (q[i]) := List.getElem?_eq_getElem hilen
  have hblen : i < ab.length := hlen ▸ hilen
  have hb : ab[i]? = some (ab[i]) := List.getElem?_eq_getElem hblen
  have := zeroRows_getElem? q ab i (q[i]) (ab[i]) hq hb
  rw [hi] at this
  have hrow' : row' = (q[i]).map
      (fun x => x * (1 - ratOfBool (ab[i]))) :=
    Option.some.inj this
  have hne : q[i] ≠ [] := hrows _ (List.getElem_mem hilen)
  intro hcon
  rw [hcon] at hrow'
  exact hne (List.map_eq_nil_iff.mp hrow'.symm)

/-- Postcondition of `max_QA` as the spec describes it: per-row maxima of the
absorbing-zeroed Q-matrix with, per row, the first maximal index when the
batch has several rows, and a tie-set member drawn uniformly (the `tiesOf`
list is duplicate-free and enumerates exactly the argmax set, each element
reached by exactly one in-range draw residue) when the batch has one row. -/
def MaxQAPost {σ : Type} (states : List σ) (absorbing : List Bool)
    (approx : Approximator σ) (draw : ℕ) : Prop :=
  ∃ maxs args, max_QA states absorbing approx draw = some (maxs, args) ∧
    maxs.length = (zeroRows (approx.predict_all states) absorbing).length ∧
    (zeroRows (approx.predict_all states) absorbing).length
      = (approx.predict_all states).length ∧
    (∀ (i : ℕ) (row0 : List ℚ) (b : Bool),
      (approx.predict_all states)[i]? = some row0 → absorbing[i]? = some b →
      (zeroRows (approx.predict_all states) absorbing)[i]?
        = some (row0.map (fun x => x * (1 - ratOfBool b)))) ∧
    (∀ (i : ℕ) (row : List ℚ),
      (zeroRows (approx.predict_all states) absorbing)[i]? = some row →
      ∃ m, maxs[i]? = some m ∧ m ∈ row ∧ ∀ x ∈ row, x ≤ m) ∧
    (1 < (zeroRows (approx.predict_all states) absorbing).length →
      args.length = (zeroRows (approx.predict_all states) absorbing).length ∧
      ∀ (i a : ℕ) (row : List ℚ),
        (zeroRows (approx.predict_all states) absorbing)[i]? = some row →
        args[i]? = some a →
        ∃ m, maxs[i]? = some m ∧ row[a]? = some m ∧
          ∀ j, j < a → ∃ y, row[j]? = some y ∧ y < m) ∧
    ((zeroRows (approx.predict_all states) absorbing).length = 1 →
      ∃ row m a, zeroRows (approx.predict_all states) absorbing = [row] ∧
        maxs = [m] ∧ args = [a] ∧ row[a]? = some m ∧ a ∈ tiesOf row m ∧
        (∀ j : ℕ, j ∈ tiesOf row m ↔ row[j]? = some m) ∧
        (tiesOf row m).Nodup ∧
        (∀ b ∈ tiesOf row m, ∃ k, k < (tiesOf row m).length ∧
          (tiesOf row m)[k]? = some b) ∧
        (∀ (k1 k2 b : ℕ), k1 < (tiesOf row m).length →
          (tiesOf row m)[k1]? = some b → (tiesOf row m)[k2]? = some b → k1 = k2))

/-- C8: on a well-shaped non-empty batch, `max_QA` returns the per-row maxima
of the Q-matrix with absorbing rows zeroed, together with argmax indices:
deterministic first-max indices for batches of more than one row, and for a
single-row batch a member of the duplicate-free tie list enumerating exactly
the argmax set, each tie reached by exactly one draw residue (uniform
tie-break). -/
theorem max_QA_spec {σ : Type} (states : List σ) (absorbing : List Bool)
    (approx : Approximator σ) (draw : ℕ)
    (hne : approx.predict_all states ≠ [])
    (hlen : (approx.predict_all states).length = absorbing.length)
    (hrows : ∀ row ∈ approx.predict_all states, row ≠ []) :
    MaxQAPost states absorbing approx draw := by
  have hqlen : (zeroRows (approx.predict_all states) absorbing).length
      = (approx.predict_all states).length :=
    zeroRows_length _ absorbing hlen
  have hqrows : ∀ row ∈ zeroRows (approx.predict_all states) absorbing, row ≠ [] :=
    zeroRows_rows_ne_nil _ absorbing hlen hrows
  obtain ⟨maxs, hmaxs, hmlen, hmget⟩ :=
    mapOrNone_total rowMax (zeroRows (approx.predict_all states) absorbing)
      (fun r hr => rowMax_isSome r (hqrows r hr))
  have hmaxprop : ∀ (i : ℕ) (row : List ℚ),
      (zeroRows (approx.predict_all states) absorbing)[i]? = some row →
      ∃ m, maxs[i]? = some m ∧ m ∈ row ∧ ∀ x ∈ row, x ≤ m := by
    intro i row hrow
    obtain ⟨m, hm, hrm⟩ := hmget i row hrow
    obtain ⟨hmem, hub⟩ := rowMax_mem_ub row m hrm
    exact ⟨m, hm, hmem, hub⟩
  by_cases h1 : 1 < (zeroRows (approx.predict_all states) absorbing).length
  · obtain ⟨args, hargs, halen, haget⟩ :=
      mapOrNone_total argmaxFirst (zeroRows (approx.predict_all states) absorbing)
        (fun r hr => argmaxFirst_isSome r (hqrows r hr))
    refine ⟨maxs, args, ?_, hmlen, hqlen,
      fun i row0 b ha hb => zeroRows_getElem? _ absorbing i row0 b ha hb,
      hmaxprop, ?_, ?_⟩
    · simp only [max_QA, hmaxs]
      rw [if_pos h1, hargs]
    · intro _
      refine ⟨halen, ?_⟩
      intro i a row hrow harg
      obtain ⟨m, hm, hrm⟩ := hmget i row hrow
      obtain ⟨a', ha'eq, ha'get, ha'lt⟩ := argmaxFirst_spec row m hrm
      obtain ⟨a'', ha''get, ha''f⟩ := haget i row hrow
      rw [harg] at ha''get
      have haa : a = a'' := Option.some.inj ha''get
      rw [ha'eq] at ha''f
      have haa' : a'' = a' := (Option.some.inj ha''f).symm
      subst haa; subst haa'
      exact ⟨m, hm, ha'get, ha'lt⟩
    · intro hq1
      omega
  · have hq0pos : 0 < (approx.predict_all states).length := List.length_pos.mpr hne
    have hq1 : (zeroRows (approx.predict_all states) absorbing).length = 1 := by omega
    obtain ⟨row, hrowq⟩ := List.length_eq_one.mp hq1
    have hrow0 : (zeroRows (approx.predict_all states) absorbing)[0]? = some row := by
      rw [hrowq]; rfl
    obtain ⟨m, hm0, hrm⟩ := hmget 0 row hrow0
    have hm1 : maxs.length = 1 := by rw [hmlen, hq1]
    obtain ⟨m', hmeq⟩ := List.length_eq_one.mp hm1
    have hmm : m' = m := by
      rw [hmeq] at hm0
      exact Option.some.inj hm0
    rw [hmm] at hmeq
    have htne : tiesOf row m ≠ [] := tiesOf_ne_nil row m hrm
    have htpos : 0 < (tiesOf row m).length := List.length_pos.mpr htne
    have hdlt : draw % (tiesOf row m).length < (tiesOf row m).length :=
      Nat.mod_lt _ htpos
    have hsel : (tiesOf row m)[draw % (tiesOf row m).length]?
        = some ((tiesOf row m)[draw % (tiesOf row m).length]) :=
      List.getElem?_eq_getElem hdlt
    refine ⟨maxs, [(tiesOf row m)[draw % (tiesOf row m).length]], ?_, hmlen, hqlen,
      fun i row0 b ha hb => zeroRows_getElem? _ absorbing i row0 b ha hb,
      hmaxprop, fun hcon => absurd hcon h1, ?_⟩
    · simp only [max_QA, hmaxs]
      rw [if_neg h1, hrowq, hmeq]
      show (match (tiesOf row m)[draw % (tiesOf row m).length]? with
        | none => none
        | some a => some ([m], [a]))
        = some ([m], [(tiesOf row m)[draw % (tiesOf row m).length]])
      rw [hsel]
    · intro _
      have hamem : (tiesOf row m)[draw % (tiesOf row m).length] ∈ tiesOf row m :=
        List.getElem_mem hdlt
      refine ⟨row, m, (tiesOf row m)[draw % (tiesOf row m).length],
        hrowq, hmeq, rfl, (tiesOf_mem_iff row m _).mp hamem, hamem,
        fun j => tiesOf_mem_iff row m j, tiesOf_nodup row m, ?_, ?_⟩
      · intro b hb
        obtain ⟨k, hk⟩ := List.mem_iff_getElem?.mp hb
        exact ⟨k, (List.getElem?_eq_some_iff.mp hk).1, hk⟩
      · intro k1 k2 b hk1 hb1 hb2
        exact List.getElem?_inj hk1 (tiesOf_nodup row m) (hb1.trans hb2.symm)

/-- C8 witness: a two-row batch with the second state absorbing, and a
one-row batch (same approximator restricted) exercising the random
tie-break. -/
theorem max_QA_spec_witness :
    (([[1, 2], [3, 0]] : List (List ℚ)) ≠ [] ∧
      ([[1, 2], [3, 0]] : List (List ℚ)).length = ([false, true] : List Bool).length ∧
      ∀ row ∈ ([[1, 2], [3, 0]] : List (List ℚ)), row ≠ []) ∧
    MaxQAPost [0, 1] [false, true] ⟨fun states => states.map
      (fun s => if s = 0 then [1, 2] else [3, 0])⟩ 5 :=
  ⟨⟨by decide, by decide, by decide⟩,
    max_QA_spec [0, 1] [false, true] _ 5 (by decide) (by decide) (by decide)⟩

/-! ### Embedding of the Ornstein-Uhlenbeck policy -/

/-- An Ornstein-Uhlenbeck policy: mean approximator, per-component noise
magnitude `sigma`, mean-reversion rate `theta`, time step `dt`, optional
initial noise `x0`.  The square root `np.sqrt` of the numeric library is an
opaque parameter `sqrtFn` of the operations. -/
structure OUPolicy (σ : Type) where
  predict : σ → List ℚ
  sigma : List ℚ
  theta : ℚ
  dt : ℚ
  x0 : Option (List ℚ)

/-- The discretized OU noise update
`x = policy_state - theta*policy_state*dt + sigma*sqrt_dt*noise`,
componentwise. -/
def ouStep (theta dt : ℚ) (sigma : List ℚ) (sqrt_dt : ℚ)
    (ps noise : List ℚ) : List ℚ :=
  List.zipWith (fun x sn => x - theta * x * dt + sn) ps
    (List.zipWith (fun s n => s * sqrt_dt * n) sigma noise)

/-- Embedding of `OrnsteinUhlenbeckPolicy.draw_action`: `noise` is the
standard normal draw `torch.randn(output_shape)`. -/
def OUPolicy.draw_action {σ : Type} (p : OUPolicy σ) (sqrtFn : ℚ → ℚ)
    (state : σ) (policy_state noise : List ℚ) : List ℚ × List ℚ :=
  let mu := p.predict state
  let x := ouStep p.theta p.dt p.sigma (sqrtFn p.dt) policy_state noise
  (List.zipWith (· + ·) mu x, x)

/-- Repeated calls to `draw_action`, threading the returned policy state back
in, one call per noise draw; returns the successive policy states. -/
def ouIter {σ : Type} (p : OUPolicy σ) (sqrtFn : ℚ → ℚ) (state : σ) :
    List ℚ → List (List ℚ) → List (List ℚ)
  | _, [] => []
  | x, n :: ns =>
    let r := p.draw_action sqrtFn state x n
    r.2 :: ouIter p sqrtFn state r.2 ns

/-- Modelled from the spec: the recurrence
`x_{t+1} = x_t - theta*x_t*dt + sigma*sqrt(dt)*noise_t` applied along a fixed
noise sequence. -/
def ouRecurrence (theta dt : ℚ) (sigma : List ℚ) (sqrt_dt : ℚ) :
    List ℚ → List (List ℚ) → List (List ℚ)
  | _, [] => []
  | x, n :: ns =>
    let x' := List.zipWith (fun xi sn => xi - theta * xi * dt + sn) x
      (List.zipWith (fun s ni => s * sqrt_dt * ni) sigma n)
    x' :: ouRecurrence theta dt sigma sqrt_dt x' ns

/-- C9: `draw_action` returns `(mu + x_new, x_new)` with
`x_new = policy_state - theta*policy_state*dt + sigma*sqrt(dt)*noise`
componentwise, and feeding the returned policy state back reproduces the OU
recurrence along any fixed noise sequence. -/
theorem ou_draw_action_recurrence {σ : Type} (p : OUPolicy σ) (sqrtFn : ℚ → ℚ)
    (state : σ) (ps noise : List ℚ) :
    p.draw_action sqrtFn state ps noise
      = (List.zipWith (· + ·) (p.predict state)
          (ouStep p.theta p.dt p.sigma (sqrtFn p.dt) ps noise),
         ouStep p.theta p.dt p.sigma (sqrtFn p.dt) ps noise) ∧
    (∀ (i : ℕ) (xi si ni : ℚ), ps[i]? = some xi → p.sigma[i]? = some si →
      noise[i]? = some ni →
      (ouStep p.theta p.dt p.sigma (sqrtFn p.dt) ps noise)[i]?
        = some (xi - p.theta * xi * p.dt + si * sqrtFn p.dt * ni)) ∧
    (∀ (x0 : List ℚ) (noises : List (List ℚ)),
      ouIter p sqrtFn state x0 noises
        = ouRecurrence p.theta p.dt p.sigma (sqrtFn p.dt) x0 noises) := by
  refine ⟨rfl, ?_, ?_⟩
  · intro i xi si ni hx hs hn
    rw [ouStep, List.getElem?_zipWith, hx, List.getElem?_zipWith, hs, hn]
  · intro x0 noises
    induction noises generalizing x0 with
    | nil => rfl
    | cons n ns ih =>
      show ouStep p.theta p.dt p.sigma (sqrtFn p.dt) x0 n
          :: ouIter p sqrtFn state (ouStep p.theta p.dt p.sigma (sqrtFn p.dt) x0 n) ns
        = _
      rw [ouRecurrence]
      exact congrArg _ (ih _)

/-- C9 witness: a one-component policy evaluated at concrete values. -/
theorem ou_draw_action_recurrence_witness :
    (([5] : List ℚ)[0]? = some 5 ∧ ([3] : List ℚ)[0]? = some 3 ∧
      ([7] : List ℚ)[0]? = some 7) ∧
    (ouStep 2 4 [3] (id (4 : ℚ)) [5] [7])[0]?
      = some (5 - 2 * 5 * 4 + 3 * id (4 : ℚ) * 7) :=
  ⟨⟨rfl, rfl, rfl⟩,
    (ou_draw_action_recurrence
      (⟨fun _ => [1], [3], 2, 4, none⟩ : OUPolicy Unit) id () [5] [7]).2.1
      0 5 3 7 rfl rfl rfl⟩

/-! ### Embedding of the clipped Gaussian policy -/

/-- The errors the clipped Gaussian policy can raise: the explicit
`ValueError`, the `TypeError` from arithmetic with an unset (`None`) field,
and Python's `UnboundLocalError` for a name read before assignment. -/
inductive PolicyError where
  | valueError : String → PolicyError
  | typeErr : PolicyError
  | unboundLocal : String → PolicyError
deriving DecidableEq

/-- Opaque numeric primitives of the tensor library used by the policy. -/
structure TorchMath where
  sigmoid : ℚ → ℚ
  tanh : ℚ → ℚ

/-- The clipped Gaussian policy state: the approximator, the Cholesky factor
`chol_sigma` precomputed at construction, the action bounds, the mode flags
and action-space split, and the externally set normalization statistics. -/
structure ClippedGaussianPolicy where
  predict : List ℚ → List ℚ
  chol_sigma : List (List ℚ)
  low : List ℚ
  high : List ℚ
  draw_random_act : Bool
  draw_deterministic : Bool
  squash_actions : Bool
  discrete_action_dims : ℕ
  continuous_action_dims : ℕ
  normalize_states : Bool
  states_mean : Option (List ℚ)
  states_std : Option (List ℚ)

/-- Python negative slice `l[-c:]` (for `c = 0`, `l[0:]` is the whole
list). -/
def negTail (l : List ℚ) (c : ℕ) : List ℚ :=
  if c = 0 then l else l.drop (l.length - c)

/-- Componentwise `torch.clip(a, low, high) = min(max(a, low), high)`. -/
def clipVec (a lo hi : List ℚ) : List ℚ :=
  List.zipWith min (List.zipWith max a lo) hi

/-- Matrix-vector product, for the Cholesky factor acting on a standard
normal draw. -/
def matVec (mat : List (List ℚ)) (v : List ℚ) : List ℚ :=
  mat.map (fun rowv => (List.zipWith (· * ·) rowv v).sum)

/-- In-place squash `mu[-c:] = tanh(mu[-c:])`. -/
def squash (tm : TorchMath) (c : ℕ) (mu : List ℚ) : List ℚ :=
  if c = 0 then mu.map tm.tanh
  else mu.take (mu.length - c) ++ (mu.drop (mu.length - c)).map tm.tanh

/-- The state-normalization sub-step shared by `draw_action` and
`draw_deterministic_action`: the source checks only `states_mean is None`; a
set mean with an unset std reaches `(state - mean) / None`, a `TypeError`. -/
def normalizeState (p : ClippedGaussianPolicy) (state : List ℚ) :
    Except PolicyError (List ℚ) :=
  if p.normalize_states then
    match p.states_mean with
    | none => .error (.valueError "States mean is not set by the agent class")
    | some m =>
      match p.states_std with
      | none => .error .typeErr
      | some sd => .ok (List.zipWith (· / ·) (List.zipWith (· - ·) state m) sd)
  else .ok state

/-- Embedding of `draw_random_action`:
`torch.rand(low.shape) * (high - low) + low`, with `rand` the uniform
draw. -/
def ClippedGaussianPolicy.draw_random_action (p : ClippedGaussianPolicy)
    (rand : List ℚ) : List ℚ × Option Unit :=
  (List.zipWith (· + ·)
    (List.zipWith (· * ·) rand (List.zipWith (· - ·) p.high p.low)) p.low, none)

/-- Embedding of `draw_deterministic_action`.  The local `action` is only
assigned inside the `discrete_action_dims > 0` branch; reading it outside
raises `UnboundLocalError`. -/
def ClippedGaussianPolicy.draw_deterministic_action (tm : TorchMath)
    (p : ClippedGaussianPolicy) (state : List ℚ) :
    Except PolicyError (List ℚ × Option Unit) := do
  let st ← normalizeState p state
  let mu0 := p.predict st
  let mu := if p.squash_actions then squash tm p.continuous_action_dims mu0 else mu0
  let action_raw := negTail mu p.continuous_action_dims
  if p.discrete_action_dims > 0 then
    let action_disc := (mu.take p.discrete_action_dims).map tm.sigmoid
    let action := action_disc ++ action_raw
    return (clipVec action p.low p.high, none)
  else
    .error (.unboundLocal "action")

/-- Embedding of `ClippedGaussianPolicy.draw_action`.  `z` is the standard
normal draw behind `MultivariateNormal(loc, scale_tril).sample()`
(`sample = loc + chol_sigma @ z`), `rand` the uniform draw of the random
mode.  As in the source, the local `action` is only assigned inside the
`discrete_action_dims > 0` branch. -/
def ClippedGaussianPolicy.draw_action (tm : TorchMath)
    (p : ClippedGaussianPolicy) (state z rand : List ℚ) :
    Except PolicyError (List ℚ × Option Unit) :=
  if p.draw_random_act then .ok (p.draw_random_action rand)
  else if p.draw_deterministic then p.draw_deterministic_action tm state
  else do
    let st ← normalizeState p state
    let mu0 := p.predict st
    let mu := if p.squash_actions then squash tm p.continuous_action_dims mu0 else mu0
    let action_raw := List.zipWith (· + ·) (negTail mu p.continuous_action_dims)
      (matVec p.chol_sigma z)
    if p.discrete_action_dims > 0 then
      let action_disc := (mu.take p.discrete_action_dims).map tm.sigmoid
      let action := action_disc ++ action_raw
      return (clipVec action p.low p.high, none)
    else
      .error (.unboundLocal "action")

lemma except_bind_ok {ε α β : Type} (a : α) (f : α → Except ε β) :
    (Except.ok a >>= f) = f a := rfl

lemma except_bind_error {ε α β : Type} (e : ε) (f : α → Except ε β) :
    ((Except.error e : Except ε α) >>= f) = Except.error e := rfl

/-- Supporting fact (not a claim): with discrete components present, the
stochastic path returns the clip of `sigmoid(discrete logits) ++ continuous
sample` as the spec describes. -/
lemma draw_action_pos_discrete (tm : TorchMath) (p : ClippedGaussianPolicy)
    (state z rand : List ℚ)
    (hrand : p.draw_random_act = false) (hdet : p.draw_deterministic = false)
    (hnorm : p.normalize_states = false) (hdd : p.discrete_action_dims > 0) :
    ClippedGaussianPolicy.draw_action tm p state z rand =
      .ok (clipVec
        ((((if p.squash_actions then
              squash tm p.continuous_action_dims (p.predict state)
            else p.predict state)).take p.discrete_action_dims).map tm.sigmoid ++
          List.zipWith (· + ·)
            (negTail (if p.squash_actions then
                squash tm p.continuous_action_dims (p.predict state)
              else p.predict state) p.continuous_action_dims)
            (matVec p.chol_sigma z))
        p.low p.high, none) := by
  have hns : normalizeState p state = .ok state := by
    rw [normalizeState, hnorm]
    rfl
  rw [ClippedGaussianPolicy.draw_action, hrand, hdet]
  simp only [Bool.false_eq_true, if_neg, not_false_iff, ite_false]
  rw [hns, except_bind_ok, if_pos hdd]
  rfl

/-- C1: in stochastic mode with `discrete_action_dims = 0` (the constructor
default) the local `action` is never assigned, so `draw_action` fails with
`UnboundLocalError` instead of returning the clipped continuous sample. -/
theorem draw_action_zero_discrete_unbound (tm : TorchMath)
    (predict : List ℚ → List ℚ) (chol : List (List ℚ)) (lo hi : List ℚ)
    (sq : Bool) (c : ℕ) (state z rand : List ℚ) :
    ClippedGaussianPolicy.draw_action tm
      ⟨predict, chol, lo, hi, false, false, sq, 0, c, false, none, none⟩
      state z rand
      = .error (.unboundLocal "action") := rfl

/-- C2 counterexample: with normalization requested, `states_mean` set but
`states_std` absent, both entry points fail with a `TypeError` from
`(state - mean) / None`, not with the normalization-not-configured
`ValueError` — the source checks only `states_mean`. -/
theorem normalization_std_absent_other_error :
    ClippedGaussianPolicy.draw_action ⟨id, id⟩
      ⟨fun s => s, [[1]], [0], [1], false, false, false, 1, 1, true, some [1], none⟩
      [4] [0] [0] = .error .typeErr ∧
    ClippedGaussianPolicy.draw_deterministic_action ⟨id, id⟩
      ⟨fun s => s, [[1]], [0], [1], false, false, false, 1, 1, true, some [1], none⟩
      [4] = .error .typeErr ∧
    PolicyError.typeErr
      ≠ PolicyError.valueError "States mean is not set by the agent class" :=
  ⟨rfl, rfl, by decide⟩

/-- C2 (amended): with normalization requested, the
normalization-not-configured `ValueError` is raised by `draw_action` (in
stochastic mode) and by `draw_deterministic_action` precisely when
`states_mean` is absent — in particular whenever both statistics were never
set; an absent `states_std` alone does not trigger it. -/
theorem normalization_mean_absent_value_error (tm : TorchMath)
    (p : ClippedGaussianPolicy) (state z rand : List ℚ)
    (hrand : p.draw_random_act = false) (hdet : p.draw_deterministic = false)
    (hnorm : p.normalize_states = true) (hmean : p.states_mean = none) :
    ClippedGaussianPolicy.draw_action tm p state z rand
      = .error (.valueError "States mean is not set by the agent class") ∧
    ClippedGaussianPolicy.draw_deterministic_action tm p state
      = .error (.valueError "States mean is not set by the agent class") := by
  have hns : normalizeState p state
      = .error (.valueError "States mean is not set by the agent class") := by
    rw [normalizeState, hnorm, hmean]
    rfl
  constructor
  · rw [ClippedGaussianPolicy.draw_action, hrand, hdet]
    simp only [Bool.false_eq_true, if_neg, not_false_iff, ite_false]
    rw [hns, except_bind_error]
  · rw [ClippedGaussianPolicy.draw_deterministic_action, hns, except_bind_error]

/-- C2 witness: a concrete policy with normalization requested and both
statistics unset. -/
theorem normalization_mean_absent_value_error_witness :
    ((⟨fun s => s, [[1]], [0], [1], false, false, false, 1, 1, true, none, none⟩
        : ClippedGaussianPolicy).draw_random_act = false ∧
      (⟨fun s => s, [[1]], [0], [1], false, false, false, 1, 1, true, none, none⟩
        : ClippedGaussianPolicy).draw_deterministic = false ∧
      (⟨fun s => s, [[1]], [0], [1], false, false, false, 1, 1, true, none, none⟩
        : ClippedGaussianPolicy).normalize_states = true ∧
      (⟨fun s => s, [[1]], [0], [1], false, false, false, 1, 1, true, none, none⟩
        : ClippedGaussianPolicy).states_mean = none) ∧
    ClippedGaussianPolicy.draw_action ⟨id, id⟩
      ⟨fun s => s, [[1]], [0], [1], false, false, false, 1, 1, true, none, none⟩
      [4] [0] [0]
      = .error (.valueError "States mean is not set by the agent class") ∧
    ClippedGaussianPolicy.draw_deterministic_action ⟨id, id⟩
      ⟨fun s => s, [[1]], [0], [1], false, false, false, 1, 1, true, none, none⟩
      [4] = .error (.valueError "States mean is not set by the agent class") :=
  ⟨⟨rfl, rfl, rfl, rfl⟩,
    normalization_mean_absent_value_error ⟨id, id⟩ _ [4] [0] [0] rfl rfl rfl rfl⟩

end MushroomSpec
